import Mathlib

/-!
Shallow embedding of the ArbCore execution engine
(`packages/arb-avm-cpp/data_storage/src/arbcore.cpp` together with the
declarations of `arbcore.hpp`), restricted to the parts the verified
properties are about: the message log and its accumulator-checked reads,
logs/sends retrieval, checkpoint saving, the reorg protocol, the logs
cursors, the sideload cache, the execution-cursor advance loop, and the
feeder mailbox status word.

Modelling conventions:
* 256-bit unsigned integers (`uint256_t`) carry message counts, gas values,
  hashes and indices; none of the modelled arithmetic can overflow 2^256 on
  the inputs the engine produces, so they are modelled as `Nat`.
* rocksdb column families are ordered maps; each is modelled as an
  association list sorted ascending by key, and iterator `Seek` /
  `SeekForPrev` become `dropWhile` / `takeWhile` on that list.
* `assert(...)` is a no-op in release builds; the model follows the release
  (NDEBUG) semantics, which is also what the engine's error taxonomy
  describes.
* C++ exceptions (`throw std::runtime_error`) are modelled with
  `Except String`.
-/

set_option linter.unusedVariables false

/-- Status outcomes of rocksdb operations reachable inside the model.
Transient I/O failures cannot occur on pure data, so only the
categorical statuses remain. -/
inductive RStatus where
  | ok
  | notFound
  | busy
  | tryAgain
  deriving DecidableEq, Repr

namespace RStatus

/-- Model of `rocksdb::Status::ok()`. -/
def isOk : RStatus → Bool
  | ok => true
  | _ => false

/-- Model of `rocksdb::Status::IsNotFound()`. -/
def isNotFound : RStatus → Bool
  | notFound => true
  | _ => false

end RStatus

/-- The `InboxState` pair `{count, accumulator}`: number of messages fully
processed and the running accumulator hash after message `count - 1`. -/
structure InboxState where
  count : Nat
  accumulator : Nat
  deriving DecidableEq, Repr

/-- A sequencer batch item as stored in the sequencer-batch-item column,
keyed by `last_sequence_number`. -/
structure SequencerBatchItem where
  lastSequenceNumber : Nat
  totalDelayedCount : Nat
  accumulator : Nat
  sequencerMessage : Option (List Nat)
  deriving DecidableEq, Repr

/-- The two message columns: sequencer batch items keyed by
`last_sequence_number` and delayed messages keyed by their delayed index,
both in ascending key order. -/
structure MessageStore where
  seqBatchItems : List SequencerBatchItem
  delayed : List (Nat × List Nat)
  deriving DecidableEq, Repr

namespace MessageStore

/-- Iterator `Seek(lower_bound)` on the sequencer-batch-item column:
the iterator visits the items whose key is at least `lowerBound`. -/
def seqSeek (ms : MessageStore) (lowerBound : Nat) : List SequencerBatchItem :=
  ms.seqBatchItems.dropWhile (fun item => item.lastSequenceNumber < lowerBound)

/-- Iterator `Seek(lower_bound)` on the delayed-message column. -/
def delayedSeek (ms : MessageStore) (lowerBound : Nat) : List (Nat × List Nat) :=
  ms.delayed.dropWhile (fun kv => kv.1 < lowerBound)

end MessageStore

/-- Model of `ArbCore::getNextSequencerBatchItem`: the first sequencer batch
item whose `last_sequence_number` is at least `sequenceNumber`, or
`NotFound`. -/
def getNextSequencerBatchItem (ms : MessageStore) (sequenceNumber : Nat) :
    RStatus × Option SequencerBatchItem :=
  match ms.seqSeek sequenceNumber with
  | [] => (RStatus.notFound, none)
  | item :: _ => (RStatus.ok, some item)

/-- Model of `ArbCore::isValid`: an inbox state is confirmed by the message
log when it is empty, or when the batch item covering message `count - 1`
still carries exactly its accumulator. -/
def isValid (ms : MessageStore) (fullyProcessedInbox : InboxState) : Bool :=
  if fullyProcessedInbox.count = 0 then
    true
  else
    match getNextSequencerBatchItem ms (fullyProcessedInbox.count - 1) with
    | (RStatus.ok, some item) => item.accumulator = fullyProcessedInbox.accumulator
    | _ => false

/-- A raw inbox message paired with the accumulator of the batch item that
emitted it (`RawMessageAndAccumulator`). -/
structure RawMessageAndAccumulator where
  message : List Nat
  accumulator : Nat
  deriving DecidableEq, Repr

/-- The inner `while` of `ArbCore::getMessagesImpl` that drains delayed
messages for one batch item: it walks the delayed-message iterator while
`prev_delayed_count < item.total_delayed_count` and fewer than `count`
messages have been collected, checking that each delayed key is exactly the
expected one and emitting each message with the batch item's accumulator.
Returns the advanced iterator, the new `prev_delayed_count` and the
collected messages. -/
def readDelayedLoop (count totalDelayed itemAcc : Nat) :
    List (Nat × List Nat) → Nat → List RawMessageAndAccumulator →
    Except String (List (Nat × List Nat) × Nat × List RawMessageAndAccumulator)
  | [], prevDelayed, msgs => Except.ok ([], prevDelayed, msgs)
  | (key, msg) :: rest, prevDelayed, msgs =>
      if prevDelayed < totalDelayed ∧ msgs.length < count then
        if key ≠ prevDelayed then
          Except.error "Got wrong delayed message from database"
        else
          readDelayedLoop count totalDelayed itemAcc rest (prevDelayed + 1)
            (msgs ++ [⟨msg, itemAcc⟩])
      else
        Except.ok ((key, msg) :: rest, prevDelayed, msgs)

/-- The main `for` loop of `ArbCore::getMessagesImpl` after the
consistency check on the first visited item is complete
(`needs_consistency_check` is cleared during the first iteration, so the
remaining iterations are exactly this loop).  State: the remaining
sequencer batch items, `prev_delayed_count`, the delayed-message iterator
(`none` until first created, at which point it is seeked to the current
`prev_delayed_count`) and the messages collected so far. -/
def getMessagesMainLoop (ms : MessageStore) (count : Nat) :
    List SequencerBatchItem → Nat → Option (List (Nat × List Nat)) →
    List RawMessageAndAccumulator →
    Except String (RStatus × List RawMessageAndAccumulator)
  | [], _, _, msgs => Except.ok (RStatus.ok, msgs)
  | item :: rest, prevDelayed, delayedIt, msgs =>
      match item.sequencerMessage with
      | some m =>
          if prevDelayed ≠ item.totalDelayedCount then
            Except.error
              "Sequencer batch item included both sequencer message and delayed messages"
          else
            let msgs2 := msgs ++ [⟨m, item.accumulator⟩]
            if msgs2.length ≥ count then
              Except.ok (RStatus.ok, msgs2)
            else
              getMessagesMainLoop ms count rest prevDelayed delayedIt msgs2
      | none =>
          if item.totalDelayedCount > prevDelayed then
            let dIt := delayedIt.getD (ms.delayedSeek prevDelayed)
            match readDelayedLoop count item.totalDelayedCount item.accumulator dIt
                prevDelayed msgs with
            | Except.error e => Except.error e
            | Except.ok (dRest, prevDelayed2, msgs2) =>
                if msgs2.length < count ∧ prevDelayed2 ≠ item.totalDelayedCount then
                  Except.error
                    "Sequencer batch item referenced nonexistent delayed messages"
                else if msgs2.length ≥ count then
                  Except.ok (RStatus.ok, msgs2)
                else
                  getMessagesMainLoop ms count rest prevDelayed2 (some dRest) msgs2
          else
            -- a batch item that advances nothing: `assert(false)` is a no-op
            -- in release builds and the item is skipped
            if msgs.length ≥ count then
              Except.ok (RStatus.ok, msgs)
            else
              getMessagesMainLoop ms count rest prevDelayed delayedIt msgs

/-- Model of `ArbCore::getMessagesImpl`.  For `index > 0` the iterator is
seeked to `index - 1` and the first visited item undergoes the
accumulator consistency check against `startAcc` (when supplied); the check
also positions `prev_delayed_count`.  An empty iterator with the check
still pending yields `NotFound`. -/
def getMessagesImpl (ms : MessageStore) (index count : Nat)
    (startAcc : Option Nat) :
    Except String (RStatus × List RawMessageAndAccumulator) :=
  if index = 0 then
    getMessagesMainLoop ms count (ms.seqSeek 0) 0 none []
  else
    match ms.seqSeek (index - 1) with
    | [] => Except.ok (RStatus.notFound, [])
    | item :: rest =>
        if item.accumulator ≠ startAcc.getD item.accumulator then
          Except.ok (RStatus.notFound, [])
        else if count = 0 then
          Except.ok (RStatus.ok, [])
        else if item.lastSequenceNumber ≥ index then
          -- in the middle of a delayed batch: offset `prev_delayed_count`
          -- by the distance to the end of the batch and process this item
          getMessagesMainLoop ms count (item :: rest)
            (item.totalDelayedCount - (item.lastSequenceNumber + 1 - index)) none []
        else
          -- the consistency item ends exactly at `index - 1`; continue
          getMessagesMainLoop ms count rest item.totalDelayedCount none []

/-- Model of `ArbCore::getMessages`.  The source constructs
`std::vector<std::vector<unsigned char>> bytes_vec(result.data.size())`
— a vector already holding `size` default (empty) byte strings — and then
`push_back`s each raw message, so the returned vector is the padding
followed by the messages. -/
def ArbCore.getMessages (ms : MessageStore) (index count : Nat) :
    Except String (RStatus × List (List Nat)) :=
  match getMessagesImpl ms index count none with
  | Except.error e => Except.error e
  | Except.ok (st, data) =>
      if st ≠ RStatus.ok then
        Except.ok (st, [])
      else
        Except.ok (st, List.replicate data.length [] ++ data.map (·.message))

/-- A decoded inbox message.  Wire-format deserialization
(`extractInboxMessage`) is outside the covered subsystem, so the decoded
form is the raw bytes. -/
structure InboxMessageM where
  raw : List Nat
  deriving DecidableEq, Repr

/-- Stand-in for `extractInboxMessage` (external deserializer). -/
def extractInboxMessage (raw : List Nat) : InboxMessageM := ⟨raw⟩

/-- A decoded message paired with its accumulator (`MachineMessage`). -/
structure MachineMessage where
  message : InboxMessageM
  accumulator : Nat
  deriving DecidableEq, Repr

instance : Inhabited MachineMessage := ⟨⟨⟨[]⟩, 0⟩⟩

/-- Model of `ArbCore::readNextMessages`.  The source constructs
`std::vector<MachineMessage> messages(count)` — `count` default-constructed
entries — and then `emplace_back`s each decoded message after them, so the
returned vector is the padding followed by the decoded messages.  It reads
with the caller's `fully_processed_inbox` position and accumulator. -/
def readNextMessages (ms : MessageStore) (fullyProcessedInbox : InboxState)
    (count : Nat) : Except String (RStatus × List MachineMessage) :=
  let padding : List MachineMessage := List.replicate count default
  match getMessagesImpl ms fullyProcessedInbox.count count
      (some fullyProcessedInbox.accumulator) with
  | Except.error e => Except.error e
  | Except.ok (st, data) =>
      if st ≠ RStatus.ok then
        Except.ok (st, padding)
      else
        Except.ok (RStatus.ok,
          padding ++ data.map (fun r => ⟨extractInboxMessage r.message, r.accumulator⟩))

/-- Status word of the single-slot feeder mailbox (`message_status_enum`). -/
inductive MessageStatus where
  | empty
  | ready
  | success
  | needOlder
  | error
  deriving DecidableEq, Repr

/-- Model of `ArbCore::messagesStatus`: load the current status; unless it
is `MESSAGES_ERROR` or `MESSAGES_READY`, reset the slot to
`MESSAGES_EMPTY`; return the loaded status.  The result is the pair
(returned status, new stored status). -/
def messagesStatus (current : MessageStatus) : MessageStatus × MessageStatus :=
  if current ≠ MessageStatus.error ∧ current ≠ MessageStatus.ready then
    (current, MessageStatus.empty)
  else
    (current, current)

/-- The persisted form of a checkpointed machine state
(`MachineStateKeys`): the scalar output fields the reorg protocol reads,
plus the four ValueStore hashes referencing the machine's big values. -/
structure CheckpointM where
  gasUsed : Nat
  /-- Result of `MachineStateKeys::getTotalMessagesRead()`; its body lives
  in `data_storage` sources outside the covered file, so it is carried as a
  field of the persisted state. -/
  totalMessagesRead : Nat
  inboxCount : Nat
  inboxAcc : Nat
  logCount : Nat
  sendCount : Nat
  lastSideload : Option Nat
  staticHash : Nat
  registerHash : Nat
  datastackHash : Nat
  auxstackHash : Nat
  deriving DecidableEq, Repr

/-- The checkpoint's `output.fully_processed_inbox`. -/
def CheckpointM.fullyProcessedInbox (c : CheckpointM) : InboxState :=
  ⟨c.inboxCount, c.inboxAcc⟩

/-- State of one logs cursor (`DataCursor`). -/
inductive CursorStatus where
  | empty
  | requested
  | ready
  | error
  deriving DecidableEq, Repr

/-- In-memory fields of a `DataCursor` slot. -/
structure DataCursorM where
  status : CursorStatus
  numberRequested : Nat
  pendingTotalCount : Nat
  data : List Nat
  deletedData : List Nat
  deriving DecidableEq, Repr

/-- The portions of the key-value store the covered operations touch.
Column families are association lists in ascending key order.  Log values
live in the ValueStore (`values`, hash → value); `deletedValues` records
every `deleteValue` application in order (the recursive refcount mechanics
of the ValueStore are a separate component). -/
structure CoreDB where
  checkpoints : List CheckpointM
  logs : List (Nat × Nat)
  logInserted : Nat
  sendInserted : Nat
  sends : List (Nat × List Nat)
  sideloads : List (Nat × Nat)
  messages : MessageStore
  values : List (Nat × Nat)
  deletedValues : List Nat
  cursorCurrentTotal : Nat
  deriving DecidableEq, Repr

/-- ValueStore read: reconstitute the value stored under a hash. -/
def getValue (values : List (Nat × Nat)) (hash : Nat) : Option Nat :=
  values.lookup hash

/-- ValueStore delete applied to a hash: the application is recorded; the
recursive refcount bookkeeping is internal to the ValueStore component. -/
def deleteValue (db : CoreDB) (hash : Nat) : CoreDB :=
  { db with deletedValues := db.deletedValues ++ [hash] }

/-- Model of `tx.logGetUint256Vector(key(index), count)`: read `count`
consecutive value hashes stored at log indices `index, index+1, ...`. -/
def logGetVector (logs : List (Nat × Nat)) : Nat → Nat → Option (List Nat)
  | _, 0 => some []
  | index, c + 1 => do
      let h ← logs.lookup index
      let rest ← logGetVector logs (index + 1) c
      pure (h :: rest)

/-- Model of `tx.sendGetVectorVector(key(index), count)`: read `count`
consecutive send byte strings stored at indices `index, index+1, ...`. -/
def sendGetVector (sends : List (Nat × List Nat)) : Nat → Nat → Option (List (List Nat))
  | _, 0 => some []
  | index, c + 1 => do
      let s ← sends.lookup index
      let rest ← sendGetVector sends (index + 1) c
      pure (s :: rest)

/-- The reconstitution loop of `ArbCore::getLogsNoLock`: fetch the value
behind each hash in turn, failing as soon as one is absent. -/
def getValuesList (values : List (Nat × Nat)) : List Nat → Option (List Nat)
  | [] => some []
  | h :: rest => do
      let v ← getValue values h
      let vs ← getValuesList values rest
      pure (v :: vs)

/-- Model of `ArbCore::getLogsNoLock`: empty requests and requests past
`log_inserted_count` yield OK with no data; otherwise the count is clamped
to the tail, the stored hashes are read and each log value is reconstituted
from the ValueStore. -/
def getLogsNoLock (db : CoreDB) (index count : Nat) : RStatus × List Nat :=
  if count = 0 then
    (RStatus.ok, [])
  else
    let maxLogCount := db.logInserted
    if index ≥ maxLogCount then
      (RStatus.ok, [])
    else
      let count2 := if index + count > maxLogCount then maxLogCount - index else count
      match logGetVector db.logs index count2 with
      | none => (RStatus.notFound, [])
      | some hashes =>
          match getValuesList db.values hashes with
          | none => (RStatus.notFound, [])
          | some vals => (RStatus.ok, vals)

/-- Model of `ArbCore::getLogs` (a snapshot transaction around
`getLogsNoLock`). -/
def getLogs (db : CoreDB) (index count : Nat) : RStatus × List Nat :=
  getLogsNoLock db index count

/-- Model of `ArbCore::getSends`: an empty request yields OK; a request at
or past `send_inserted_count` yields `NotFound`; otherwise the count is
clamped to the tail and the raw sends are returned. -/
def getSends (db : CoreDB) (index count : Nat) : RStatus × List (List Nat) :=
  if count = 0 then
    (RStatus.ok, [])
  else
    let maxSendCount := db.sendInserted
    if index ≥ maxSendCount then
      (RStatus.notFound, [])
    else
      let count2 := if index + count > maxSendCount then maxSendCount - index else count
      match sendGetVector db.sends index count2 with
      | none => (RStatus.notFound, [])
      | some sends => (RStatus.ok, sends)

/-- Ordered-map put on the checkpoint column keyed by `arb_gas_used`. -/
def checkpointPut : List CheckpointM → CheckpointM → List CheckpointM
  | [], c => [c]
  | d :: rest, c =>
      if c.gasUsed < d.gasUsed then c :: d :: rest
      else if c.gasUsed = d.gasUsed then c :: rest
      else d :: checkpointPut rest c

/-- Model of `ArbCore::saveCheckpoint`.  When the live machine's
`fully_processed_inbox` is no longer confirmed by the message log, the
source logs the error, hits `assert(false)` (a no-op in release builds) and
returns `rocksdb::Status::OK()` without persisting anything.  Otherwise the
machine state is persisted (`saveMachineState`, ValueStore internals out of
scope here) and the serialized state keys are put under the gas key. -/
def saveCheckpoint (db : CoreDB) (state : CheckpointM) : RStatus × CoreDB :=
  if ¬ isValid db.messages state.fullyProcessedInbox then
    (RStatus.ok, db)
  else
    (RStatus.ok, { db with checkpoints := checkpointPut db.checkpoints state })

/-- Shared state the claims quantify over: the key-value store, the single
logs cursor (`logs_cursors{1}`) and the in-memory sideload cache.  The
cache maps block numbers to cloned machines; only its key set is relevant
to the covered properties, one entry per block number. -/
structure CoreState where
  db : CoreDB
  cursor : DataCursorM
  sideloadCache : Finset Nat
  deriving DecidableEq

/-- Truncation and downgrade tail of `ArbCore::handleLogsCursorReorg`:
queued `data` extending past `log_count` (relative to the persisted
current total count) is truncated, and a READY cursor left with neither
`data` nor `deleted_data` is downgraded to REQUESTED. -/
def cursorReorgFinish (db : CoreDB) (cur : DataCursorM) (currentCount logCount : Nat) :
    RStatus × CoreDB × DataCursorM :=
  let cur2 :=
    if cur.data ≠ [] then
      if currentCount ≥ logCount then
        { cur with data := [] }
      else if currentCount + cur.data.length > logCount then
        { cur with data := cur.data.take (logCount - currentCount) }
      else
        cur
    else
      cur
  let cur3 :=
    if cur2.status = CursorStatus.ready ∧ cur2.data = [] ∧ cur2.deletedData = [] then
      { cur2 with status := CursorStatus.requested }
    else
      cur2
  (RStatus.ok, db, cur3)

/-- Model of `ArbCore::handleLogsCursorReorg` (single cursor slot).  Reads
the persisted current total count, lifts `pending_total_count` up to it if
needed; when `log_count` is below the pending count it snapshots the logs
in `[log_count, pending_total_count)` into `deleted_data` newest-first,
resets the pending count and clamps the persisted count down to
`log_count`; finally truncates queued `data` and downgrades an emptied
READY cursor. -/
def handleLogsCursorReorg (db : CoreDB) (cur : DataCursorM) (logCount : Nat) :
    RStatus × CoreDB × DataCursorM :=
  let currentCount := db.cursorCurrentTotal
  let cur1 :=
    if currentCount > cur.pendingTotalCount then
      { cur with pendingTotalCount := currentCount }
    else
      cur
  if logCount < cur1.pendingTotalCount then
    let logsRes := getLogsNoLock db logCount (cur1.pendingTotalCount - logCount)
    if logsRes.1 ≠ RStatus.ok then
      (logsRes.1, db, cur1)
    else
      let cur2 :=
        { cur1 with
          deletedData := cur1.deletedData ++ logsRes.2.reverse
          pendingTotalCount := logCount }
      let db2 :=
        if currentCount > logCount then
          { db with cursorCurrentTotal := logCount }
        else
          db
      cursorReorgFinish db2 cur2 currentCount logCount
  else
    cursorReorgFinish db cur1 currentCount logCount

/-- Fixed size of the sideload cache window (`sideload_cache_size`). -/
def sideloadCacheSize : Nat := 20

/-- The sideload-cache maintenance step of `ArbCore::operator()` after an
assertion ending at sideload block `block`: the cloned machine is stored
under `block`, then every entry more than `sideload_cache_size` blocks old
or in the future (reorged out) is erased.  The guard `block >
sideload_cache_size` prevents underflow of `block - sideload_cache_size`. -/
def sideloadCacheEvict (cache : Finset Nat) (block : Nat) : Finset Nat :=
  (insert block cache).filter
    (fun k => ¬ ((block > sideloadCacheSize ∧ k < block - sideloadCacheSize) ∨ k > block))

/-- Model of `ArbCore::deleteSideloadsStartingAt`: erase every sideload
cache entry with block number at least `blockNumber`, then delete every
sideload column entry from `blockNumber` on. -/
def deleteSideloadsStartingAt (st : CoreState) (blockNumber : Nat) : RStatus × CoreState :=
  let cache2 := st.sideloadCache.filter (fun k => k < blockNumber)
  let db2 := { st.db with sideloads := st.db.sideloads.filter (fun kv => kv.1 < blockNumber) }
  (RStatus.ok, { st with sideloadCache := cache2, db := db2 })

/-- Model of the free function `deleteLogsStartingAt`: seek the log column
to `logIndex` and apply a ValueStore delete to the referenced hash of every
entry from there on.  The log entries themselves are not erased.  Returns
`none` when the seek finds nothing to delete. -/
def deleteLogsStartingAt (db : CoreDB) (logIndex : Nat) : Option RStatus × CoreDB :=
  let toDelete := db.logs.filter (fun kv => logIndex ≤ kv.1)
  if toDelete.isEmpty then
    (none, db)
  else
    (some RStatus.ok, toDelete.foldl (fun d kv => deleteValue d kv.2) db)

/-- Modelled from the spec: deleting a checkpoint "also calls
ValueStore.delete for each hash field (static, register, stack, aux)" — the
body of `deleteMachineState` lives in `data_storage/src/value/machine.cpp`,
which is not among the covered sources. -/
def deleteMachineState (db : CoreDB) (c : CheckpointM) : CoreDB :=
  deleteValue (deleteValue (deleteValue (deleteValue db c.staticHash)
    c.registerHash) c.datastackHash) c.auxstackHash

/-- The checkpoint-selection loop of `ArbCore::reorgToMessageOrBefore`,
walking the checkpoint column from the highest gas downward (the argument
list is the column in reverse).  A checkpoint is the target when it has
read no messages, or `use_latest` is set, or it is at or before the
requested message — provided its `fully_processed_inbox` is still confirmed
by the message log (an unconfirmed one trips a release-mode no-op
`assert(false)` and is deleted like an obsolete one).  Returns the
checkpoints visited and deleted (in deletion order) and, when a target is
found, the remaining reversed tail together with the target. -/
def reorgSelectLoop (ms : MessageStore) (messageSequenceNumber : Nat) (useLatest : Bool) :
    List CheckpointM →
    List CheckpointM × Option (List CheckpointM × CheckpointM)
  | [] => ([], none)
  | c :: rest =>
      if (c.totalMessagesRead = 0 ∨ useLatest ∨
            messageSequenceNumber ≥ c.totalMessagesRead - 1)
          ∧ isValid ms c.fullyProcessedInbox then
        ([], some (rest, c))
      else
        let (deleted, r) := reorgSelectLoop ms messageSequenceNumber useLatest rest
        (c :: deleted, r)

/-- The tail of `ArbCore::reorgToMessageOrBefore` once the target
checkpoint has been selected and the obsolete ones deleted: the logs
cursor snapshots the about-to-be-deleted logs when the target's log count
is below `log_inserted_count`, sideloads beyond the target's
`last_sideload` are dropped (cache and column), a ValueStore delete is
applied to every log entry from the target's log count on, and the
inserted counters are reset to the target's counters.  Sends are never
erased.  The rebuilt live machine and its published output are outside
this state model. -/
def reorgAfterSelection (st : CoreState) (target : CheckpointM) :
    RStatus × CoreState :=
  match (if target.logCount < st.db.logInserted then
      handleLogsCursorReorg st.db st.cursor target.logCount
    else
      (RStatus.ok, st.db, st.cursor)) with
  | (stat, db3, cur3) =>
      if stat ≠ RStatus.ok then
        (stat, { st with db := db3, cursor := cur3 })
      else
        let nextSideloadBlock :=
          match target.lastSideload with
          | some b => b + 1
          | none => 0
        let st3 : CoreState := { db := db3, cursor := cur3, sideloadCache := st.sideloadCache }
        -- the statuses of the two deletions below are checked in the
        -- source; in the model both are constant OK, so the early-return
        -- paths they guard are unreachable
        let st4 := (deleteSideloadsStartingAt st3 nextSideloadBlock).2
        let db5 := (deleteLogsStartingAt st4.db target.logCount).2
        let db6 := { db5 with
          logInserted := target.logCount
          sendInserted := target.sendCount }
        (RStatus.ok, { st4 with db := db6 })

/-- Model of `ArbCore::reorgToMessageOrBefore`.  An empty checkpoint
column yields `NotFound`.  Otherwise obsolete and unconfirmed checkpoints
are deleted from the top down (each deletion releasing the machine-state
values); if no checkpoint survives, the exhausted iterator's OK status is
returned with no target.  With a target, `reorgAfterSelection` truncates
the outputs; the selected target is returned alongside the status for
specification purposes. -/
def reorgToMessageOrBefore (st : CoreState) (messageSequenceNumber : Nat)
    (useLatest : Bool) : RStatus × CoreState × Option CheckpointM :=
  if st.db.checkpoints.isEmpty then
    (RStatus.notFound, st, none)
  else
    match reorgSelectLoop st.db.messages messageSequenceNumber useLatest
        st.db.checkpoints.reverse with
    | (deleted, none) =>
        let db1 := deleted.foldl deleteMachineState st.db
        (RStatus.ok, { st with db := { db1 with checkpoints := [] } }, none)
    | (deleted, some (survivorsRev, target)) =>
        let db1 := deleted.foldl deleteMachineState st.db
        let db2 := { db1 with checkpoints := survivorsRev.reverse ++ [target] }
        match reorgAfterSelection { st with db := db2 } target with
        | (stat, st4) =>
            if stat = RStatus.ok then
              (RStatus.ok, st4, some target)
            else
              (stat, st4, none)

/-- The execution-relevant portion of a materialized cursor machine: its
cumulative gas, the gas cost of the next instruction, and its
`fully_processed_inbox`.  The keys-only/live-machine variant of
`ExecutionCursor::machine` is collapsed: materialization
(`resolveExecutionCursorMachine` via `getMachineUsingStateKeys`) does not
change any of these fields. -/
structure CoreMachine where
  gasUsed : Nat
  nextGasCost : Nat
  inbox : InboxState
  deriving DecidableEq, Repr

/-- Environment of an execution-cursor advance: the message store read each
iteration, the checkpoint column (gas key → checkpointed machine, ascending
gas) consulted by `getClosestExecutionMachine`, and the VM `run` step,
which consumes an execution context of messages and reports the machine
after the run together with the assertion's gas count. -/
structure ExecEnv where
  messages : MessageStore
  checkpoints : List (Nat × CoreMachine)
  run : CoreMachine → List MachineMessage → CoreMachine × Nat

/-- Checkpoint `SeekForPrev` (`getCheckpointUsingGas` with `after_gas =
false`): the last checkpoint whose gas key is at most `gas`. -/
def seekLE (checkpoints : List (Nat × CoreMachine)) (gas : Nat) : Option CoreMachine :=
  ((checkpoints.takeWhile (fun kv => kv.1 ≤ gas)).getLast?).map (·.2)

/-- Exits of one pass of the inner `while (true)` loop of
`ArbCore::advanceExecutionCursorImpl`. -/
inductive InnerExit where
  /-- One of the gas-target break conditions fired, or the machine ran
  without consuming gas: the pass is over with `handle_reorg` still
  false. -/
  | reachedTarget (m : CoreMachine)
  /-- The pass broke out with `handle_reorg = true`. -/
  | reorg (m : CoreMachine)
  /-- The message read failed and its status is returned. -/
  | fail (s : RStatus) (m : CoreMachine)
  /-- A C++ exception escaped. -/
  | thrown (e : String)
  deriving DecidableEq, Repr

/-- The inner `while (true)` loop of `ArbCore::advanceExecutionCursorImpl`,
with fuel for the (unbounded) run iterations.  Break conditions: the gas
target is met exactly, overshooting is permitted and the target is passed,
or overshooting is forbidden and the next instruction would pass it.
Otherwise the next messages are read.  The source tests
`!get_messages_result.status.IsNotFound()` — the test is preserved as
written, so a successful read takes the `handle_reorg` branch and a
not-found read falls through to the status check. -/
def advanceInnerLoop (env : ExecEnv) (totalGasUsed : Nat) (goOverGas : Bool)
    (messageGroupSize : Nat) : Nat → CoreMachine → Option InnerExit
  | 0, _ => none
  | fuel + 1, m =>
      if m.gasUsed = totalGasUsed then
        some (InnerExit.reachedTarget m)
      else if goOverGas ∧ m.gasUsed > totalGasUsed then
        some (InnerExit.reachedTarget m)
      else if ¬ goOverGas ∧ m.gasUsed + m.nextGasCost > totalGasUsed then
        some (InnerExit.reachedTarget m)
      else
        match readNextMessages env.messages m.inbox messageGroupSize with
        | Except.error e => some (InnerExit.thrown e)
        | Except.ok (st, msgs) =>
            if ¬ st.isNotFound then
              some (InnerExit.reorg m)
            else if ¬ st.isOk then
              some (InnerExit.fail st m)
            else
              let (m2, gasCount) := env.run m msgs
              if gasCount = 0 then
                some (InnerExit.reachedTarget m2)
              else
                advanceInnerLoop env totalGasUsed goOverGas messageGroupSize fuel m2

/-- The outer `while (handle_reorg)` loop of
`ArbCore::advanceExecutionCursorImpl`: on re-entry with a positive attempt
count it backs off and gives up with `Busy` once 16 attempts have been
made; otherwise it runs the inner loop and, when that pass broke out for a
reorg, replaces the cursor's machine with the checkpoint at or below the
gas target and retries.  `attempts` is `reorg_attempts`; the outer fuel
only guards the recursion (17 is always enough since attempts cap at
16). -/
def advanceReorgLoop (env : ExecEnv) (totalGasUsed : Nat) (goOverGas : Bool)
    (messageGroupSize innerFuel : Nat) :
    Nat → Nat → CoreMachine → Option (Except String (RStatus × CoreMachine))
  | _, 0, _ => none
  | attempts, fuel + 1, m =>
      if attempts > 0 ∧ attempts ≥ 16 then
        some (Except.ok (RStatus.busy, m))
      else
        match advanceInnerLoop env totalGasUsed goOverGas messageGroupSize innerFuel m with
        | none => none
        | some (InnerExit.thrown e) => some (Except.error e)
        | some (InnerExit.fail s m2) => some (Except.ok (s, m2))
        | some (InnerExit.reachedTarget m2) => some (Except.ok (RStatus.ok, m2))
        | some (InnerExit.reorg m2) =>
            match seekLE env.checkpoints totalGasUsed with
            | none => some (Except.ok (RStatus.notFound, m2))
            | some ck =>
                advanceReorgLoop env totalGasUsed goOverGas messageGroupSize innerFuel
                  (attempts + 1) fuel ck

/-- Model of `ArbCore::advanceExecutionCursorImpl`: the cursor holds
machine `m`; the result carries the final status and cursor machine.
`none` means the fuel bound on the unbounded source loops was hit. -/
def advanceExecutionCursorImpl (env : ExecEnv) (m : CoreMachine)
    (totalGasUsed : Nat) (goOverGas : Bool) (messageGroupSize innerFuel : Nat) :
    Option (Except String (RStatus × CoreMachine)) :=
  advanceReorgLoop env totalGasUsed goOverGas messageGroupSize innerFuel 0 17 m

/-! Concrete stores and states used to evaluate the model on explicit
inputs. -/

/-- A message store holding a single sequencer message `[1, 2, 3]` at
sequence number 0 with accumulator 42. -/
def demoStore : MessageStore :=
  ⟨[⟨0, 0, 42, some [1, 2, 3]⟩], []⟩

/-- An empty message store. -/
def emptyStore : MessageStore := ⟨[], []⟩

/-- A machine at gas 0 whose inbox is the untouched genesis inbox. -/
def demoMachine : CoreMachine := ⟨0, 1, ⟨0, 0⟩⟩

/-- A machine claiming one processed message with accumulator 7. -/
def demoMachineAhead : CoreMachine := ⟨0, 1, ⟨1, 7⟩⟩

/-- Environment over the empty message store with a genesis checkpoint:
reads succeed with no data, so the advance loop's inverted reorg test
fires on every iteration. -/
def demoEnvOk : ExecEnv :=
  ⟨emptyStore, [(0, demoMachine)], fun m _ => (m, 0)⟩

/-- Environment over the empty message store for a cursor whose inbox
claims an already-reorged-out message: the read reports not-found. -/
def demoEnvNotFound : ExecEnv :=
  ⟨emptyStore, [(0, demoMachineAhead)], fun m _ => (m, 0)⟩

/-- A checkpoint whose `fully_processed_inbox` claims one message with
accumulator 5 — unconfirmed over `emptyStore`. -/
def demoInvalidCkpt : CheckpointM :=
  ⟨100, 1, 1, 5, 0, 0, none, 11, 12, 13, 14⟩

/-- A genesis-like checkpoint: nothing read, no outputs. -/
def demoGenesisCkpt : CheckpointM :=
  ⟨0, 0, 0, 0, 0, 0, none, 1, 2, 3, 4⟩

/-- A checkpoint over `demoStore` that has processed the single message
and produced one log and one send. -/
def demoValidCkpt : CheckpointM :=
  ⟨50, 1, 1, 42, 1, 1, some 3, 5, 6, 7, 8⟩

/-- A database whose message log is empty but which still holds state:
used to exercise `saveCheckpoint` against an unconfirmed machine. -/
def demoDB : CoreDB where
  checkpoints := [demoGenesisCkpt]
  logs := [(0, 100), (1, 101), (2, 102)]
  logInserted := 3
  sendInserted := 2
  sends := [(0, [9]), (1, [8])]
  sideloads := [(3, 40)]
  messages := demoStore
  values := [(100, 1000), (101, 1001), (102, 1002)]
  deletedValues := []
  cursorCurrentTotal := 1

/-- A full core state over `demoDB` with an idle cursor and two cached
sideload machines. -/
def demoState : CoreState where
  db := { demoDB with checkpoints := [demoGenesisCkpt, demoValidCkpt, demoInvalidCkpt] }
  cursor := ⟨CursorStatus.empty, 0, 1, [], []⟩
  sideloadCache := {3, 7}

/-- A READY cursor with two queued logs, pending count 3, against
`demoDB`'s persisted current total count of 1. -/
def demoCursor : DataCursorM :=
  ⟨CursorStatus.ready, 5, 3, [1001, 1002], []⟩

/-! Theorems. -/

/-- C10: `messagesStatus` is not a pure read.  It returns the stored
mailbox status and, unless that status is READY or ERROR (i.e. for
SUCCESS, NEED_OLDER and EMPTY), resets the slot to EMPTY; READY and ERROR
leave the slot unchanged. -/
theorem messagesStatus_resets_slot (s : MessageStatus) :
    (messagesStatus s).1 = s ∧
    (messagesStatus s).2 =
      (if s = MessageStatus.ready ∨ s = MessageStatus.error then s
       else MessageStatus.empty) := by
  cases s <;> simp [messagesStatus]

/-- C9: for a positive count, a `getSends` read at or past
`send_inserted_count` fails with NotFound and an empty vector, while the
analogous past-the-tail `getLogs` read returns OK with an empty vector; a
zero-count `getSends` returns OK with an empty vector. -/
theorem getSends_pastTail_notFound (db : CoreDB) (index count : Nat) :
    (0 < count → db.sendInserted ≤ index →
      getSends db index count = (RStatus.notFound, [])) ∧
    (count = 0 → getSends db index count = (RStatus.ok, [])) ∧
    (db.logInserted ≤ index → getLogs db index count = (RStatus.ok, [])) := by
  refine ⟨fun hc hi => ?_, fun hc => ?_, fun hi => ?_⟩
  · have : ¬ count = 0 := Nat.pos_iff_ne_zero.mp hc
    simp [getSends, this, hi]
  · simp [getSends, hc]
  · by_cases hc : count = 0 <;> simp [getLogs, getLogsNoLock, hc, hi]

/-- C9 witness: the past-the-tail contrast evaluated on the demo store
(`send_inserted_count = 2`, `log_inserted_count = 3`). -/
theorem getSends_pastTail_notFound_witness :
    getSends demoDB 2 1 = (RStatus.notFound, []) ∧
    getSends demoDB 0 0 = (RStatus.ok, []) ∧
    getLogs demoDB 3 1 = (RStatus.ok, []) :=
  ⟨(getSends_pastTail_notFound demoDB 2 1).1 (by decide) (by decide),
   (getSends_pastTail_notFound demoDB 0 0).2.1 rfl,
   (getSends_pastTail_notFound demoDB 3 1).2.2 (by decide)⟩

/-- C3 counterexample: the claim asserts that `saveCheckpoint` on a machine
whose `fully_processed_inbox` is no longer confirmed by the message log is
reported as a failure so the Executor loop aborts.  At this concrete
unconfirmed state the call returns `OK`, which the Executor treats as
success. -/
theorem saveCheckpoint_invalid_not_failure :
    isValid demoDB.messages demoInvalidCkpt.fullyProcessedInbox = false ∧
    (saveCheckpoint demoDB demoInvalidCkpt).1 = RStatus.ok := by
  exact ⟨rfl, rfl⟩

/-- C3 amended: if `saveCheckpoint` is called while the live machine's
`fully_processed_inbox` is no longer confirmed by the message log, no
checkpoint entry is persisted for that state — the database is returned
unchanged — but the error is only logged (with a release-mode no-op
`assert(false)`) and the call returns OK, so the Executor loop does not
abort. -/
theorem saveCheckpoint_invalid_skips (db : CoreDB) (state : CheckpointM)
    (h : isValid db.messages state.fullyProcessedInbox = false) :
    saveCheckpoint db state = (RStatus.ok, db) := by
  simp [saveCheckpoint, h]

/-- C3 witness: the amended behaviour at the concrete unconfirmed state. -/
theorem saveCheckpoint_invalid_skips_witness :
    saveCheckpoint demoDB demoInvalidCkpt = (RStatus.ok, demoDB) :=
  saveCheckpoint_invalid_skips demoDB demoInvalidCkpt (by decide)

/-- C2: at a store holding exactly one raw message `[1, 2, 3]` (so
`message_entry_inserted_count = 1`, `i = 0`, `n = 1`) `getMessages` returns
OK but a two-element vector — a default-constructed empty entry followed by
the stored message — because the result vector is constructed already
holding `result.data.size()` default elements before the messages are
pushed.  `readNextMessages` likewise prefixes `count` default-constructed
`MachineMessage`s to the decoded messages. -/
theorem getMessages_prepends_padding :
    ArbCore.getMessages demoStore 0 1 = Except.ok (RStatus.ok, [[], [1, 2, 3]]) ∧
    readNextMessages demoStore ⟨0, 0⟩ 1 =
      Except.ok (RStatus.ok, [⟨⟨[]⟩, 0⟩, ⟨⟨[1, 2, 3]⟩, 42⟩]) := by
  exact ⟨rfl, rfl⟩

/-- C1: the reorg test of `advanceExecutionCursorImpl` is inverted
(`!IsNotFound` instead of `IsNotFound`).  Over an environment where every
per-iteration message read succeeds with OK — no reorg in progress — the
advance rebuilds from the checkpoint at or below the gas target and
retries until, after 16 attempts, it returns Busy.  Over an environment
where the read reports not-found — the actual reorg-in-progress signal —
it returns NotFound immediately instead of rebuilding and retrying. -/
theorem advanceExecutionCursor_inverted_reorg_test :
    advanceExecutionCursorImpl demoEnvOk demoMachine 5 false 10 2 =
      some (Except.ok (RStatus.busy, demoMachine)) ∧
    advanceExecutionCursorImpl demoEnvNotFound demoMachineAhead 5 false 10 2 =
      some (Except.ok (RStatus.notFound, demoMachineAhead)) := by
  exact ⟨rfl, rfl⟩

/-- Every member of a list of naturals sits at some index, reachable with
`getD`. -/
theorem mem_getD_index {l : List Nat} {x : Nat} (hx : x ∈ l) :
    ∃ j, j < l.length ∧ l.getD j 0 = x := by
  induction l with
  | nil => cases hx
  | cons a rest ih =>
      rcases List.mem_cons.mp hx with h | h
      · exact ⟨0, Nat.succ_pos _, by simp [h]⟩
      · obtain ⟨j, hj, hg⟩ := ih h
        exact ⟨j + 1, Nat.succ_lt_succ hj, by simpa using hg⟩

/-- Reading `m` consecutive log hashes succeeds, pointwise, when each of
the `m` entries is present. -/
theorem logGetVector_total (logs : List (Nat × Nat)) :
    ∀ (m index : Nat), (∀ j, j < m → (logs.lookup (index + j)).isSome) →
      ∃ hashes, logGetVector logs index m = some hashes ∧ hashes.length = m ∧
        ∀ j, j < m → logs.lookup (index + j) = some (hashes.getD j 0) := by
  intro m
  induction m with
  | zero =>
      intro index h
      exact ⟨[], rfl, rfl, fun j hj => absurd hj (Nat.not_lt_zero j)⟩
  | succ k ih =>
      intro index h
      have h0 : (logs.lookup index).isSome := by simpa using h 0 (Nat.succ_pos k)
      obtain ⟨v, hv⟩ := Option.isSome_iff_exists.mp h0
      obtain ⟨rest, hrest, hlen, hpt⟩ := ih (index + 1) (fun j hj => by
        have hj2 := h (j + 1) (Nat.succ_lt_succ hj)
        have : index + (j + 1) = index + 1 + j := by omega
        rwa [this] at hj2)
      refine ⟨v :: rest, ?_, by simp [hlen], ?_⟩
      · simp [logGetVector, hv, hrest]
      · intro j hj
        cases j with
        | zero => simpa using hv
        | succ i =>
            have hpti := hpt i (Nat.lt_of_succ_lt_succ hj)
            have : index + 1 + i = index + (i + 1) := by omega
            rw [this] at hpti
            simpa using hpti

/-- Reconstituting a list of hashes succeeds, pointwise, when each hash is
present in the ValueStore. -/
theorem getValuesList_total (values : List (Nat × Nat)) :
    ∀ hashes : List Nat, (∀ h ∈ hashes, (getValue values h).isSome) →
      ∃ vals, getValuesList values hashes = some vals ∧
        vals.length = hashes.length ∧
        ∀ j, j < hashes.length →
          getValue values (hashes.getD j 0) = some (vals.getD j 0) := by
  intro hashes
  induction hashes with
  | nil =>
      intro _
      exact ⟨[], rfl, rfl, fun j hj => absurd hj (Nat.not_lt_zero j)⟩
  | cons hsh rest ih =>
      intro hmem
      obtain ⟨v, hv⟩ :=
        Option.isSome_iff_exists.mp (hmem hsh (List.mem_cons_self hsh rest))
      obtain ⟨vs, hvs, hlen, hpt⟩ := ih (fun x hx => hmem x (List.mem_cons_of_mem _ hx))
      refine ⟨v :: vs, by simp [getValuesList, hv, hvs], by simp [hlen], ?_⟩
      intro j hj
      cases j with
      | zero => simpa using hv
      | succ i => simpa using hpt i (Nat.lt_of_succ_lt_succ hj)

/-- In-range `getLogsNoLock` reads succeed and reconstitute, pointwise, the
clamped range of stored logs, provided every hash in the range is stored
and resolvable. -/
theorem getLogsNoLock_total (db : CoreDB) (index count : Nat)
    (hidx : index < db.logInserted)
    (hres : ∀ j, j < min count (db.logInserted - index) →
      ((db.logs.lookup (index + j)).bind (getValue db.values)).isSome) :
    ∃ vals, getLogsNoLock db index count = (RStatus.ok, vals) ∧
      vals.length = min count (db.logInserted - index) ∧
      ∀ j, j < min count (db.logInserted - index) →
        (db.logs.lookup (index + j)).bind (getValue db.values) =
          some (vals.getD j 0) := by
  by_cases hc : count = 0
  · refine ⟨[], by simp [getLogsNoLock, hc], by simp [hc], ?_⟩
    intro j hj
    rw [hc] at hj
    simp at hj
  · have hnp : ¬ index ≥ db.logInserted := Nat.not_le.mpr hidx
    have hlk : ∀ j, j < min count (db.logInserted - index) →
        (db.logs.lookup (index + j)).isSome := by
      intro j hj
      have hb := hres j hj
      cases hl : db.logs.lookup (index + j) with
      | none => rw [hl] at hb; simp at hb
      | some _ => simp
    obtain ⟨hashes, hh, hhlen, hhpt⟩ :=
      logGetVector_total db.logs (min count (db.logInserted - index)) index hlk
    have hvm : ∀ x ∈ hashes, (getValue db.values x).isSome := by
      intro x hx
      obtain ⟨j, hj, hg⟩ := mem_getD_index hx
      rw [hhlen] at hj
      have hb := hres j hj
      rw [hhpt j hj, hg] at hb
      simpa using hb
    obtain ⟨vals, hvv, hvlen, hvpt⟩ := getValuesList_total db.values hashes hvm
    have hcount2 : (if index + count > db.logInserted then db.logInserted - index
        else count) = min count (db.logInserted - index) := by
      split <;> omega
    refine ⟨vals, ?_, by rw [hvlen, hhlen], ?_⟩
    · rw [getLogsNoLock]
      simp only [if_neg hc, if_neg hnp, hcount2, hh, hvv]
    · intro j hj
      rw [hhpt j hj]
      have hj2 : j < hashes.length := by rw [hhlen]; exact hj
      simpa using hvpt j hj2

/-- C6: `getLogs` returns OK with no data for a zero count or a start index
at or past `log_inserted_count`; otherwise it returns OK with exactly `min
count (log_inserted_count - index)` logs in index order, each reconstituted
from the ValueStore hash stored at its log index. -/
theorem getLogs_spec (db : CoreDB) (index count : Nat) :
    (count = 0 → getLogs db index count = (RStatus.ok, [])) ∧
    (db.logInserted ≤ index → getLogs db index count = (RStatus.ok, [])) ∧
    (index < db.logInserted →
      (∀ j, j < min count (db.logInserted - index) →
        ((db.logs.lookup (index + j)).bind (getValue db.values)).isSome) →
      (getLogs db index count).1 = RStatus.ok ∧
      (getLogs db index count).2.length = min count (db.logInserted - index) ∧
      ∀ j, j < min count (db.logInserted - index) →
        (db.logs.lookup (index + j)).bind (getValue db.values) =
          some ((getLogs db index count).2.getD j 0)) := by
  refine ⟨fun hc => by simp [getLogs, getLogsNoLock, hc],
          fun hi => by by_cases hc : count = 0 <;> simp [getLogs, getLogsNoLock, hc, hi],
          fun hidx hres => ?_⟩
  obtain ⟨vals, hv, hlen, hpt⟩ := getLogsNoLock_total db index count hidx hres
  have hg : getLogs db index count = (RStatus.ok, vals) := hv
  rw [hg]
  exact ⟨rfl, hlen, hpt⟩

/-- C6 witness: an in-range read on the demo store together with both
boundary cases. -/
theorem getLogs_spec_witness :
    (getLogs demoDB 1 5).1 = RStatus.ok ∧
    (getLogs demoDB 1 5).2.length = min 5 (demoDB.logInserted - 1) ∧
    (∀ j, j < min 5 (demoDB.logInserted - 1) →
      (demoDB.logs.lookup (1 + j)).bind (getValue demoDB.values) =
        some ((getLogs demoDB 1 5).2.getD j 0)) ∧
    getLogs demoDB 3 2 = (RStatus.ok, []) ∧
    getLogs demoDB 0 0 = (RStatus.ok, []) := by
  refine ⟨?_, ?_, ?_, ?_, ?_⟩
  · exact ((getLogs_spec demoDB 1 5).2.2 (by decide) (by decide)).1
  · exact ((getLogs_spec demoDB 1 5).2.2 (by decide) (by decide)).2.1
  · exact ((getLogs_spec demoDB 1 5).2.2 (by decide) (by decide)).2.2
  · exact (getLogs_spec demoDB 3 2).2.1 (by decide)
  · exact (getLogs_spec demoDB 0 0).1 rfl

/-- The truncation-and-downgrade tail leaves the cursor's queued data cut
back to what fits below `logCount` relative to the persisted count. -/
theorem cursorReorgFinish_data (db : CoreDB) (cur : DataCursorM) (c l : Nat) :
    (cursorReorgFinish db cur c l).2.2.data = cur.data.take (l - c) := by
  unfold cursorReorgFinish
  by_cases hd : cur.data = []
  · simp only [hd, ne_eq, not_true_eq_false, if_false]
    split <;> simp [hd]
  · simp only [ne_eq, hd, not_false_eq_true, if_true]
    by_cases h1 : c ≥ l
    · have hz : l - c = 0 := by omega
      simp only [if_pos h1, hz, List.take_zero]
      split <;> rfl
    · simp only [if_neg h1]
      by_cases h2 : c + cur.data.length > l
      · simp only [if_pos h2]
        split <;> rfl
      · have htk : cur.data.take (l - c) = cur.data := List.take_of_length_le (by omega)
        simp only [if_neg h2]
        split <;> simp [htk]

/-- The truncation-and-downgrade tail returns OK, passes the database
through and touches neither `deleted_data` nor `pending_total_count`. -/
theorem cursorReorgFinish_passthrough (db : CoreDB) (cur : DataCursorM) (c l : Nat) :
    (cursorReorgFinish db cur c l).1 = RStatus.ok ∧
    (cursorReorgFinish db cur c l).2.1 = db ∧
    (cursorReorgFinish db cur c l).2.2.deletedData = cur.deletedData ∧
    (cursorReorgFinish db cur c l).2.2.pendingTotalCount = cur.pendingTotalCount := by
  obtain ⟨st, nr, ptc, data, deleted⟩ := cur
  simp only [cursorReorgFinish]
  split_ifs <;> simp

/-- The READY downgrade of the truncation-and-downgrade tail fires exactly
when the cursor ends with neither data nor deleted data to deliver. -/
theorem cursorReorgFinish_status (db : CoreDB) (cur : DataCursorM) (c l : Nat) :
    (cursorReorgFinish db cur c l).2.2.status =
      (if cur.status = CursorStatus.ready ∧
          (cursorReorgFinish db cur c l).2.2.data = [] ∧
          cur.deletedData = []
       then CursorStatus.requested else cur.status) := by
  obtain ⟨st, nr, ptc, data, deleted⟩ := cur
  simp only [cursorReorgFinish]
  split_ifs <;> simp_all

/-- C7: `handleLogsCursorReorg` with a target count below the cursor's
pending total count appends the logs in `[target, pending)` to
`deleted_data` in reverse (newest-first) order, resets the pending count to
the target, clamps the persisted current total count down to the target
when it exceeds it, truncates queued `data` extending past the target, and
downgrades a READY cursor left with neither data nor deleted data to
REQUESTED. -/
theorem handleLogsCursorReorg_spec (db : CoreDB) (cur : DataCursorM)
    (targetCount : Nat)
    (hpend : targetCount < cur.pendingTotalCount)
    (hcur : db.cursorCurrentTotal ≤ cur.pendingTotalCount)
    (hins : cur.pendingTotalCount ≤ db.logInserted)
    (hres : ∀ j, j < cur.pendingTotalCount - targetCount →
      ((db.logs.lookup (targetCount + j)).bind (getValue db.values)).isSome) :
    ∃ removed : List Nat,
      removed.length = cur.pendingTotalCount - targetCount ∧
      (∀ j, j < cur.pendingTotalCount - targetCount →
        (db.logs.lookup (targetCount + j)).bind (getValue db.values) =
          some (removed.getD j 0)) ∧
      (handleLogsCursorReorg db cur targetCount).1 = RStatus.ok ∧
      (handleLogsCursorReorg db cur targetCount).2.2.deletedData =
        cur.deletedData ++ removed.reverse ∧
      (handleLogsCursorReorg db cur targetCount).2.2.pendingTotalCount =
        targetCount ∧
      (handleLogsCursorReorg db cur targetCount).2.1.cursorCurrentTotal =
        min db.cursorCurrentTotal targetCount ∧
      (handleLogsCursorReorg db cur targetCount).2.2.data =
        cur.data.take (targetCount - db.cursorCurrentTotal) ∧
      (handleLogsCursorReorg db cur targetCount).2.2.status =
        (if cur.status = CursorStatus.ready ∧
            (handleLogsCursorReorg db cur targetCount).2.2.data = [] ∧
            (handleLogsCursorReorg db cur targetCount).2.2.deletedData = []
         then CursorStatus.requested else cur.status) := by
  have hidx : targetCount < db.logInserted := lt_of_lt_of_le hpend hins
  have hminEq : min (cur.pendingTotalCount - targetCount)
      (db.logInserted - targetCount) = cur.pendingTotalCount - targetCount :=
    Nat.min_eq_left (Nat.sub_le_sub_right hins targetCount)
  obtain ⟨vals, hv, hlen, hpt⟩ := getLogsNoLock_total db targetCount
    (cur.pendingTotalCount - targetCount) hidx (fun j hj => hres j (hminEq ▸ hj))
  rw [hminEq] at hlen
  have hpt2 : ∀ j, j < cur.pendingTotalCount - targetCount →
      (db.logs.lookup (targetCount + j)).bind (getValue db.values) =
        some (vals.getD j 0) :=
    fun j hj => hpt j (by rw [hminEq]; exact hj)
  have hc1 : ¬ db.cursorCurrentTotal > cur.pendingTotalCount := not_lt.mpr hcur
  have heq : handleLogsCursorReorg db cur targetCount =
      cursorReorgFinish
        (if db.cursorCurrentTotal > targetCount
         then { db with cursorCurrentTotal := targetCount } else db)
        { cur with
          deletedData := cur.deletedData ++ vals.reverse
          pendingTotalCount := targetCount }
        db.cursorCurrentTotal targetCount := by
    rw [handleLogsCursorReorg]
    simp only [if_neg hc1, if_pos hpend, hv]
    simp
  set dbx := (if db.cursorCurrentTotal > targetCount
      then { db with cursorCurrentTotal := targetCount } else db) with hdbx
  set curx : DataCursorM := { cur with
      deletedData := cur.deletedData ++ vals.reverse
      pendingTotalCount := targetCount } with hcurx
  obtain ⟨hs1, hs2, hs3, hs4⟩ :=
    cursorReorgFinish_passthrough dbx curx db.cursorCurrentTotal targetCount
  have hdata := cursorReorgFinish_data dbx curx db.cursorCurrentTotal targetCount
  have hstat := cursorReorgFinish_status dbx curx db.cursorCurrentTotal targetCount
  refine ⟨vals, hlen, hpt2, ?_, ?_, ?_, ?_, ?_, ?_⟩
  · rw [heq]; exact hs1
  · rw [heq, hs3]
  · rw [heq, hs4]
  · rw [heq, hs2, hdbx]
    by_cases hg : db.cursorCurrentTotal > targetCount
    · rw [if_pos hg]
      simp only []
      omega
    · rw [if_neg hg]
      omega
  · rw [heq, hdata]
  · rw [heq, hstat, hs3]

/-- C7 witness: the reorg handler evaluated against the demo store with a
READY cursor at pending count 3 and reorg target 1. -/
theorem handleLogsCursorReorg_spec_witness :
    (handleLogsCursorReorg demoDB demoCursor 1).1 = RStatus.ok ∧
    (handleLogsCursorReorg demoDB demoCursor 1).2.2.pendingTotalCount = 1 ∧
    (handleLogsCursorReorg demoDB demoCursor 1).2.1.cursorCurrentTotal =
      min demoDB.cursorCurrentTotal 1 ∧
    (handleLogsCursorReorg demoDB demoCursor 1).2.2.data =
      demoCursor.data.take (1 - demoDB.cursorCurrentTotal) := by
  obtain ⟨removed, hlen, hpt, h1, h2, h3, h4, h5, h6⟩ :=
    handleLogsCursorReorg_spec demoDB demoCursor 1 (by decide) (by decide)
      (by decide) (by decide)
  exact ⟨h1, h3, h4, h5⟩

/-- Once the consistency check is complete, the message-reading loop can
throw or succeed but never reports NotFound. -/
theorem getMessagesMainLoop_ne_notFound (ms : MessageStore) (count : Nat) :
    ∀ (items : List SequencerBatchItem) (prevDelayed : Nat)
      (delayedIt : Option (List (Nat × List Nat)))
      (msgs l : List RawMessageAndAccumulator),
      getMessagesMainLoop ms count items prevDelayed delayedIt msgs ≠
        Except.ok (RStatus.notFound, l) := by
  intro items
  induction items with
  | nil =>
      intro prev dIt msgs l
      simp [getMessagesMainLoop]
  | cons item rest ih =>
      intro prev dIt msgs l
      rw [getMessagesMainLoop]
      cases hsm : item.sequencerMessage with
      | some m =>
          dsimp only
          split
          · simp
          · split
            · simp
            · exact ih _ _ _ _
      | none =>
          dsimp only
          split
          · cases hrd : readDelayedLoop count item.totalDelayedCount item.accumulator
                (dIt.getD (ms.delayedSeek prev)) prev msgs with
            | error e => simp
            | ok res =>
                obtain ⟨dRest, prev2, msgs2⟩ := res
                dsimp only
                split
                · simp
                · split
                  · simp
                  · exact ih _ _ _ _
          · split
            · simp
            · exact ih _ _ _ _

/-- C5: with a caller-supplied start accumulator, a read starting at index
`i > 0` checks the first sequencer batch item at or after sequence number
`i - 1`: the read reports NotFound exactly when no such item exists or its
accumulator differs from the supplied one; at `i = 0` no consistency check
is performed and NotFound cannot arise. -/
theorem getMessagesImpl_startAcc_consistency (ms : MessageStore) (i n a : Nat) :
    (0 < i →
      ((∃ l, getMessagesImpl ms i n (some a) = Except.ok (RStatus.notFound, l)) ↔
        ∀ item ∈ (ms.seqSeek (i - 1)).head?, item.accumulator ≠ a)) ∧
    (∀ l, getMessagesImpl ms 0 n (some a) ≠ Except.ok (RStatus.notFound, l)) := by
  constructor
  · intro hi
    have hiz : ¬ i = 0 := by omega
    rw [getMessagesImpl, if_neg hiz]
    cases hseq : MessageStore.seqSeek ms (i - 1) with
    | nil => simp
    | cons item rest =>
        dsimp only
        by_cases hacc : item.accumulator = a
        · have hcond : ¬ item.accumulator ≠ (some a).getD item.accumulator := by
            simp [hacc]
          rw [if_neg hcond]
          constructor
          · rintro ⟨l, hl⟩
            exfalso
            by_cases hn : n = 0
            · rw [if_pos hn] at hl
              simp at hl
            · rw [if_neg hn] at hl
              by_cases hml : item.lastSequenceNumber ≥ i
              · rw [if_pos hml] at hl
                exact getMessagesMainLoop_ne_notFound ms n _ _ _ _ _ hl
              · rw [if_neg hml] at hl
                exact getMessagesMainLoop_ne_notFound ms n _ _ _ _ _ hl
          · intro hall
            exact absurd hacc (by simpa using hall item rfl)
        · have hcond : item.accumulator ≠ (some a).getD item.accumulator := by
            simpa using hacc
          rw [if_pos hcond]
          constructor
          · intro _ x hx
            have hxi : item = x := by simpa using hx
            rw [← hxi]
            exact hacc
          · intro _
            exact ⟨[], rfl⟩
  · intro l
    rw [getMessagesImpl, if_pos rfl]
    exact getMessagesMainLoop_ne_notFound ms n _ _ _ _ _

/-- C5 witness: over the demo store, a read at index 1 with a wrong start
accumulator reports NotFound. -/
theorem getMessagesImpl_startAcc_consistency_witness :
    ∃ l, getMessagesImpl demoStore 1 1 (some 5) =
      Except.ok (RStatus.notFound, l) :=
  ((getMessagesImpl_startAcc_consistency demoStore 1 1 5).1 (by decide)).mpr
    (by decide)

/-- C8: after a sideload save at block `B` the cache retains only entries
with block numbers in `[B - 20, B]` (so nothing is more than 20 blocks
behind the newest entry, which is `B` itself), hence at most 21 entries in
total; and on reorg `deleteSideloadsStartingAt b` removes exactly the
cache entries with block number at least `b`, never growing the cache. -/
theorem sideloadCache_bounded (cache : Finset Nat) (block bound : Nat)
    (st : CoreState) :
    (sideloadCacheEvict cache block).card ≤ 21 ∧
    block ∈ sideloadCacheEvict cache block ∧
    (∀ k ∈ sideloadCacheEvict cache block,
      block - sideloadCacheSize ≤ k ∧ k ≤ block) ∧
    (∀ k, k ∈ (deleteSideloadsStartingAt st bound).2.sideloadCache ↔
      k ∈ st.sideloadCache ∧ k < bound) ∧
    (deleteSideloadsStartingAt st bound).2.sideloadCache.card ≤
      st.sideloadCache.card := by
  have hmem : ∀ k ∈ sideloadCacheEvict cache block,
      block - sideloadCacheSize ≤ k ∧ k ≤ block := by
    intro k hk
    rw [sideloadCacheEvict, Finset.mem_filter] at hk
    have hbound := hk.2
    simp only [sideloadCacheSize] at hbound ⊢
    omega
  have hdel : ∀ k, k ∈ (deleteSideloadsStartingAt st bound).2.sideloadCache ↔
      k ∈ st.sideloadCache ∧ k < bound := by
    intro k
    show k ∈ st.sideloadCache.filter (fun k => k < bound) ↔ _
    rw [Finset.mem_filter]
  refine ⟨?_, ?_, hmem, hdel, ?_⟩
  · have hsub : sideloadCacheEvict cache block ⊆
        Finset.Icc (block - sideloadCacheSize) block := by
      intro k hk
      rw [Finset.mem_Icc]
      exact hmem k hk
    calc (sideloadCacheEvict cache block).card
        ≤ (Finset.Icc (block - sideloadCacheSize) block).card :=
          Finset.card_le_card hsub
      _ = block + 1 - (block - sideloadCacheSize) := Nat.card_Icc _ _
      _ ≤ 21 := by simp only [sideloadCacheSize]; omega
  · rw [sideloadCacheEvict, Finset.mem_filter]
    refine ⟨Finset.mem_insert_self _ _, ?_⟩
    simp only [sideloadCacheSize]
    omega
  · exact Finset.card_le_card (Finset.filter_subset _ _)

/-- C8 witness: eviction after a save at block 30 and reorg deletion at
block 4 evaluated on concrete caches. -/
theorem sideloadCache_bounded_witness :
    (sideloadCacheEvict {3, 7, 30} 30).card ≤ 21 ∧
    30 ∈ sideloadCacheEvict {3, 7, 30} 30 ∧
    (3 ∈ (deleteSideloadsStartingAt demoState 4).2.sideloadCache ↔
      3 ∈ demoState.sideloadCache ∧ 3 < 4) :=
  ⟨(sideloadCache_bounded {3, 7, 30} 30 4 demoState).1,
   (sideloadCache_bounded {3, 7, 30} 30 4 demoState).2.1,
   (sideloadCache_bounded {3, 7, 30} 30 4 demoState).2.2.2.1 3⟩

/-- Deleting a checkpoint's machine state records exactly its four value
hashes. -/
theorem deleteMachineState_eq (db : CoreDB) (c : CheckpointM) :
    deleteMachineState db c = { db with deletedValues := db.deletedValues ++
      [c.staticHash, c.registerHash, c.datastackHash, c.auxstackHash] } := by
  simp [deleteMachineState, deleteValue]

/-- A fold of operations that only append to the delete record itself only
appends to the delete record. -/
theorem foldl_deletedValues_append {α : Type} (f : CoreDB → α → CoreDB)
    (hf : ∀ db x, ∃ e, f db x = { db with deletedValues := db.deletedValues ++ e }) :
    ∀ (l : List α) (db : CoreDB),
      ∃ e, l.foldl f db = { db with deletedValues := db.deletedValues ++ e } := by
  intro l
  induction l with
  | nil =>
      intro db
      exact ⟨[], by simp⟩
  | cons x rest ih =>
      intro db
      obtain ⟨e1, h1⟩ := hf db x
      obtain ⟨e2, h2⟩ := ih (f db x)
      refine ⟨e1 ++ e2, ?_⟩
      rw [List.foldl_cons, h2, h1]
      simp

/-- Every value hash referenced by a list of log entries is recorded by
the deletion fold over that list. -/
theorem mem_foldl_deleteValue (l : List (Nat × Nat)) :
    ∀ (db : CoreDB) (kv : Nat × Nat), kv ∈ l →
      kv.2 ∈ (l.foldl (fun d p => deleteValue d p.2) db).deletedValues := by
  induction l with
  | nil =>
      intro db kv h
      cases h
  | cons p rest ih =>
      intro db kv h
      rw [List.foldl_cons]
      rcases List.mem_cons.mp h with h | h
      · obtain ⟨e, he⟩ := foldl_deletedValues_append
          (fun (d : CoreDB) (q : Nat × Nat) => deleteValue d q.2)
          (fun d q => ⟨[q.2], rfl⟩) rest
          (deleteValue db p.2)
        rw [he]
        subst h
        simp [deleteValue]
      · exact ih _ _ h

/-- The logs-cursor reorg handler touches the database only through the
persisted cursor current-total count. -/
theorem handleLogsCursorReorg_db_shape (db : CoreDB) (cur : DataCursorM) (t : Nat) :
    ∃ n, (handleLogsCursorReorg db cur t).2.1 = { db with cursorCurrentTotal := n } := by
  have hpass : ∀ (dbx : CoreDB) (curx : DataCursorM) (c l : Nat),
      (cursorReorgFinish dbx curx c l).2.1 = dbx :=
    fun dbx curx c l => (cursorReorgFinish_passthrough dbx curx c l).2.1
  simp only [handleLogsCursorReorg]
  split_ifs <;>
    first
      | exact ⟨db.cursorCurrentTotal, rfl⟩
      | (rw [hpass]; exact ⟨t, rfl⟩)

/-- `deleteLogsStartingAt` only appends to the delete record. -/
theorem deleteLogsStartingAt_shape (db : CoreDB) (idx : Nat) :
    ∃ e, (deleteLogsStartingAt db idx).2 =
      { db with deletedValues := db.deletedValues ++ e } := by
  rw [deleteLogsStartingAt]
  split
  · exact ⟨[], by simp⟩
  · exact foldl_deletedValues_append
      (fun (d : CoreDB) (q : Nat × Nat) => deleteValue d q.2)
      (fun d q => ⟨[q.2], rfl⟩) _ db

/-- `deleteLogsStartingAt` applies a ValueStore delete to the hash of
every log entry at or past the start index. -/
theorem deleteLogsStartingAt_mem (db : CoreDB) (idx : Nat) :
    ∀ kv ∈ db.logs, idx ≤ kv.1 →
      kv.2 ∈ (deleteLogsStartingAt db idx).2.deletedValues := by
  intro kv hkv hle
  have hmemf : kv ∈ db.logs.filter (fun kv => idx ≤ kv.1) :=
    List.mem_filter.mpr ⟨hkv, by simpa using hle⟩
  rw [deleteLogsStartingAt]
  split
  · next hemp =>
      rw [List.isEmpty_iff] at hemp
      rw [hemp] at hmemf
      cases hmemf
  · exact mem_foldl_deleteValue _ db kv hmemf

/-- After a successful post-selection reorg phase, the inserted counters
equal the target's counters, every log entry at or past the target's log
count has had a ValueStore delete applied to its hash, and the send column
is untouched. -/
theorem reorgAfterSelection_spec (st : CoreState) (target : CheckpointM)
    (stOut : CoreState)
    (h : reorgAfterSelection st target = (RStatus.ok, stOut)) :
    stOut.db.logInserted = target.logCount ∧
    stOut.db.sendInserted = target.sendCount ∧
    (∀ kv ∈ st.db.logs, target.logCount ≤ kv.1 →
      kv.2 ∈ stOut.db.deletedValues) ∧
    stOut.db.sends = st.db.sends := by
  rw [reorgAfterSelection] at h
  rcases hif : (if target.logCount < st.db.logInserted then
      handleLogsCursorReorg st.db st.cursor target.logCount
    else
      (RStatus.ok, st.db, st.cursor)) with ⟨stat, db3, cur3⟩
  rw [hif] at h
  dsimp only at h
  have hdb3 : ∃ n, db3 = { st.db with cursorCurrentTotal := n } := by
    by_cases hc : target.logCount < st.db.logInserted
    · rw [if_pos hc] at hif
      obtain ⟨n, hn⟩ := handleLogsCursorReorg_db_shape st.db st.cursor target.logCount
      exact ⟨n, by rw [← hn, hif]⟩
    · rw [if_neg hc] at hif
      refine ⟨st.db.cursorCurrentTotal, ?_⟩
      have h31 : db3 = st.db := by
        have h2 := congrArg (fun p => p.2.1) hif
        simpa using h2.symm
      rw [h31]
  obtain ⟨n3, hn3⟩ := hdb3
  by_cases hstat : stat ≠ RStatus.ok
  · rw [if_pos hstat] at h
    have h1 := congrArg Prod.fst h
    simp only [Prod.fst] at h1
    exact absurd h1 hstat
  · rw [if_neg hstat] at h
    have hout := congrArg Prod.snd h
    dsimp only at hout
    subst hout
    refine ⟨rfl, rfl, ?_, ?_⟩
    · intro kv hkv hle
      show kv.2 ∈ (deleteLogsStartingAt _ target.logCount).2.deletedValues
      apply deleteLogsStartingAt_mem
      · show kv ∈ db3.logs
        rw [hn3]
        exact hkv
      · exact hle
    · obtain ⟨e, he⟩ := deleteLogsStartingAt_shape
        ((deleteSideloadsStartingAt ⟨db3, cur3, st.sideloadCache⟩
          (match target.lastSideload with | some b => b + 1 | none => 0)).2).db
        target.logCount
      show ((deleteLogsStartingAt _ target.logCount).2).sends = st.db.sends
      rw [he]
      show db3.sends = st.db.sends
      rw [hn3]

/-- C4: when `reorgToMessageOrBefore` succeeds with target checkpoint `c`,
`log_inserted_count` equals `c.output.log_count` and `send_inserted_count`
equals `c.output.send_count`; every log entry with index at or past
`c.output.log_count` has had a ValueStore delete applied to its referenced
hash; and no send entry is erased from storage — sends are truncated only
by the counter. -/
theorem reorg_truncates_outputs (st : CoreState) (messageSequenceNumber : Nat)
    (useLatest : Bool) (st2 : CoreState) (c : CheckpointM)
    (h : reorgToMessageOrBefore st messageSequenceNumber useLatest =
      (RStatus.ok, st2, some c)) :
    st2.db.logInserted = c.logCount ∧
    st2.db.sendInserted = c.sendCount ∧
    (∀ kv ∈ st.db.logs, c.logCount ≤ kv.1 → kv.2 ∈ st2.db.deletedValues) ∧
    st2.db.sends = st.db.sends := by
  rw [reorgToMessageOrBefore] at h
  by_cases hemp : st.db.checkpoints.isEmpty
  · rw [if_pos hemp] at h
    have h1 := congrArg (fun p => p.1) h
    simp at h1
  · rw [if_neg hemp] at h
    rcases hsel : reorgSelectLoop st.db.messages messageSequenceNumber useLatest
        st.db.checkpoints.reverse with ⟨deleted, sel⟩
    rw [hsel] at h
    cases sel with
    | none =>
        dsimp only at h
        have h1 := congrArg (fun p => p.2.2) h
        simp at h1
    | some pr =>
        obtain ⟨survRev, target⟩ := pr
        dsimp only at h
        rcases hra : reorgAfterSelection
            { st with db := { (deleted.foldl deleteMachineState st.db) with
              checkpoints := survRev.reverse ++ [target] } } target with ⟨stat, st4⟩
        rw [hra] at h
        dsimp only at h
        by_cases hst : stat = RStatus.ok
        · rw [if_pos hst] at h
          have h2 : st4 = st2 := by
            have := congrArg (fun p => p.2.1) h
            simpa using this
          have h3 : target = c := by
            have := congrArg (fun p => p.2.2) h
            simpa using this
          subst hst
          obtain ⟨r1, r2, r3, r4⟩ := reorgAfterSelection_spec _ target st4 hra
          obtain ⟨e, he⟩ := foldl_deletedValues_append deleteMachineState
            (fun db cp => ⟨_, deleteMachineState_eq db cp⟩) deleted st.db
          have hmidlogs : ({ (deleted.foldl deleteMachineState st.db) with
              checkpoints := survRev.reverse ++ [target] } : CoreDB).logs =
              st.db.logs := by
            rw [he]
          have hmidsends : ({ (deleted.foldl deleteMachineState st.db) with
              checkpoints := survRev.reverse ++ [target] } : CoreDB).sends =
              st.db.sends := by
            rw [he]
          refine ⟨?_, ?_, ?_, ?_⟩
          · rw [← h2, ← h3]
            exact r1
          · rw [← h2, ← h3]
            exact r2
          · intro kv hkv hle
            rw [← h2]
            refine r3 kv ?_ ?_
            · rw [hmidlogs]
              exact hkv
            · rw [h3]
              exact hle
          · rw [← h2, r4]
            exact hmidsends
        · rw [if_neg hst] at h
          have h1 := congrArg (fun p => p.2.2) h
          simp at h1

/-- C4 witness: a concrete reorg over `demoState` (an invalid checkpoint on
top of a valid one, three inserted logs, two sends) truncates to the valid
checkpoint's counters, records deletes for logs 1 and 2, and leaves the
send column intact. -/
theorem reorg_truncates_outputs_witness :
    (reorgToMessageOrBefore demoState 0 true).2.1.db.logInserted =
      demoValidCkpt.logCount ∧
    (reorgToMessageOrBefore demoState 0 true).2.1.db.sendInserted =
      demoValidCkpt.sendCount ∧
    (∀ kv ∈ demoState.db.logs, demoValidCkpt.logCount ≤ kv.1 →
      kv.2 ∈ (reorgToMessageOrBefore demoState 0 true).2.1.db.deletedValues) ∧
    (reorgToMessageOrBefore demoState 0 true).2.1.db.sends =
      demoState.db.sends :=
  reorg_truncates_outputs demoState 0 true
    (reorgToMessageOrBefore demoState 0 true).2.1 demoValidCkpt (by decide)
